import Mathlib

/-!
Verification development for the buildkite-honeycomb-exporter daemon.

The Go program is shallowly embedded below:

* `Build`, `Job`, `Agent` model the `buildkite.Build` / `buildkite.Job` /
  `buildkite.Agent` records as consumed by the program.  Optional pointer
  fields become `Option`; timestamps (`time.Time`) become `Int`
  (microseconds on a total order; `After` is `<` on `Int`).
* `processJob` and `processBuild` are the span-builder functions from
  `build.go` and the final job-processing revision; the OpenTelemetry
  calls are reified into a `SpanData` value (events, attributes, status,
  explicit start/end timestamps).  A nil-pointer dereference that the Go
  code can hit (the `*j.Name` read) is reified as an explicit
  `panicNilName` result.
* `processBuildsState` / `pageLoop` / `runCycle` / `runCycleTr` model the
  ingestion cycle `processBuildKite` from `daemon.go`: the per-build
  dedup/watermark loop, the pagination loop with its error-retry
  behaviour, and (in `runCycleTr`) the observable order of effects as a
  trace of `Action`s ending with the cache write, the watermark store and
  the `wg.Wait()` join.
* `loadCache` / `writeCache` model the dedup persistence from
  `daemon.go`, with file contents as `List Char` and the semantics of
  `bufio.Scanner` with its default `ScanLines` split function (tokens are
  split at newline and a single trailing carriage return is dropped from
  each token).
-/

namespace Exporter

/-- OpenTelemetry attribute values used by the program
(`attribute.String`, `attribute.Int`/`attribute.Int64`, `attribute.Bool`). -/
inductive AttrValue where
  | str (s : String)
  | int (i : Int)
  | bool (b : Bool)
deriving DecidableEq

/-- OpenTelemetry span status codes (`codes.Unset`, `codes.Ok`, `codes.Error`). -/
inductive StatusCode where
  | unset
  | ok
  | error
deriving DecidableEq

/-- Agent record nested in a job (`buildkite.Agent`): optional strings plus a
list of raw metadata strings. -/
structure Agent where
  name : Option String
  hostname : Option String
  ipAddress : Option String
  version : Option String
  metadata : List String
deriving DecidableEq

/-- Job record (`buildkite.Job`) as consumed by the program. -/
structure Job where
  name : Option String
  state : Option String
  stepKey : Option String
  logsURL : Option String
  createdAt : Option Int
  scheduledAt : Option Int
  runnableAt : Option Int
  startedAt : Option Int
  finishedAt : Option Int
  retriesCount : Int
  retried : Bool
  softFailed : Bool
  exitStatus : Option Int
  agent : Agent
deriving DecidableEq

/-- A decoded dynamic value from the untyped `b.MetaData` map: the program
only distinguishes strings from everything else. -/
inductive GoValue where
  | str (s : String)
  | other
deriving DecidableEq

/-- Build record (`buildkite.Build`) as consumed by the program.  `id` and
`number` are dereferenced unconditionally by the code, so they are not
optional here; `metaData` is the decoded `map[string]interface{}` as an
association list (the Go map iteration order is fixed by the list order). -/
structure Build where
  id : String
  number : Int
  state : Option String
  scheduledAt : Option Int
  startedAt : Option Int
  finishedAt : Option Int
  commit : Option String
  branch : Option String
  authorEmail : Option String
  webURL : Option String
  metaData : Option (List (String × GoValue))
  jobs : List Job
deriving DecidableEq

/-- The observable content of one exported span: name, explicit start and end
timestamps, events (name, timestamp), attributes in the order they are set,
and the final status (code, message). -/
structure SpanData where
  name : String
  startTime : Int
  endTime : Int
  events : List (String × Int)
  attrs : List (String × AttrValue)
  status : StatusCode × String
deriving DecidableEq

/-- A build span together with its child job spans, in job order. -/
structure BuildSpan where
  base : SpanData
  children : List SpanData
deriving DecidableEq

/-- The three-way state-to-status switch that appears verbatim in both
`processBuild` and `processJob`.  When the state pointer is nil the code
never calls `SetStatus`, so the span keeps the SDK default `(Unset, "")`. -/
def statusOf (state : Option String) : StatusCode × String :=
  match state with
  | none => (StatusCode.unset, "")
  | some s =>
    if s = "failed" then (StatusCode.error, s)
    else if s = "passed" ∨ s = "finished" then (StatusCode.ok, s)
    else (StatusCode.unset, s)

/-- One optional string attribute: emitted only when the source field is
present (the `if ptr != nil { SetAttributes(...) }` pattern). -/
def optAttr (o : Option String) (key : String) : List (String × AttrValue) :=
  match o with
  | some v => [(key, AttrValue.str v)]
  | none => []

/-- Split a character list at every occurrence of `c`.  This is the List-Char
semantics of Go `strings.Split(s, sep)` for a one-character separator: the
result always has (number of occurrences of `c`) + 1 components. -/
def splitCh (c : Char) : List Char → List (List Char)
  | [] => [[]]
  | a :: rest =>
    if a = c then [] :: splitCh c rest
    else
      match splitCh c rest with
      | t :: ts => (a :: t) :: ts
      | [] => [[a]]

/-- Go `strings.Split(m, "=")` on a string. -/
def splitEq (m : String) : List String :=
  (splitCh '=' m.data).map List.asString

/-- The agent-metadata loop of `processJob`: each raw string is split on
`=`; entries that do not split into exactly two tokens are skipped
(`continue`), the rest become `agent_<key>` string attributes. -/
def agentMetaAttrs (ms : List String) : List (String × AttrValue) :=
  ms.foldl
    (fun acc m =>
      match splitEq m with
      | [k, v] => acc ++ [("agent_" ++ k, AttrValue.str v)]
      | _ => acc)
    []

/-- All attributes set on a job span, in program order.  `st` is the job's
started-at timestamp, already known present from the guard in `processJob`
(the code reads `j.StartedAt.Time` inside the runnable-duration branch). -/
def jobAttrs (j : Job) (st : Int) : List (String × AttrValue) :=
  (match j.scheduledAt, j.createdAt with
   | some sc, some cr => [("schedule_duration_ms", AttrValue.int (cr - sc))]
   | _, _ => [])
  ++ (match j.createdAt, j.runnableAt with
      | some cr, some ru => [("create_duration_ms", AttrValue.int (ru - cr))]
      | _, _ => [])
  ++ (match j.runnableAt with
      | some ru => [("runnable_duration_ms", AttrValue.int (st - ru))]
      | none => [])
  ++ optAttr j.state "state"
  ++ [("retry_count", AttrValue.int j.retriesCount),
      ("retried", AttrValue.bool j.retried),
      ("soft_failed", AttrValue.bool j.softFailed)]
  ++ optAttr j.logsURL "url"
  ++ optAttr j.stepKey "step_key"
  ++ (match j.exitStatus with
      | some e => [("exit_status", AttrValue.int e)]
      | none => [])
  ++ optAttr j.agent.name "agent_name"
  ++ optAttr j.agent.hostname "agent_hostname"
  ++ optAttr j.agent.ipAddress "agent_ip"
  ++ optAttr j.agent.version "agent_version"
  ++ agentMetaAttrs j.agent.metadata

/-- Result of running `processJob` on one job: the guard can skip the job,
the `*j.Name` dereference can hit a nil pointer, or a span is emitted. -/
inductive JobResult where
  | skipped
  | panicNilName
  | span (s : SpanData)
deriving DecidableEq

/-- The final job-processing revision: guard on `StartedAt`/`FinishedAt`
being non-nil, then start a span named `*j.Name` (note: dereferenced with
no nil check), set duration/state/metadata/agent attributes, and end the
span at the finish timestamp.  This revision adds no events. -/
def processJob (j : Job) : JobResult :=
  match j.startedAt, j.finishedAt with
  | some st, some fin =>
    match j.name with
    | none => JobResult.panicNilName
    | some nm =>
      JobResult.span
        { name := nm,
          startTime := st,
          endTime := fin,
          events := [],
          attrs := jobAttrs j st,
          status := statusOf j.state }
  | _, _ => JobResult.skipped

/-- The `b.MetaData` loop of `processBuild`: only entries of the decoded
`map[string]interface{}` whose value is a string become `build_<key>`
attributes; any other value falls into the empty `default:` branch. -/
def metaAttrs (md : Option (List (String × GoValue))) : List (String × AttrValue) :=
  match md with
  | none => []
  | some m =>
    m.foldl
      (fun acc kv =>
        match kv.2 with
        | GoValue.str s => acc ++ [("build_" ++ kv.1, AttrValue.str s)]
        | GoValue.other => acc)
      []

/-- The attributes `processBuild` sets before it reaches the metadata map. -/
def buildAttrsBase (b : Build) : List (String × AttrValue) :=
  optAttr b.state "state"
  ++ optAttr b.commit "commit"
  ++ optAttr b.branch "branch"
  ++ optAttr b.authorEmail "author"
  ++ optAttr b.webURL "url"

/-- All attributes set on a build span, in program order. -/
def buildAttrs (b : Build) : List (String × AttrValue) :=
  buildAttrsBase b ++ metaAttrs b.metaData

/-- Process a build's jobs in order, collecting the emitted child spans;
a nil-name panic in any job aborts the whole build (Go panics). -/
def collectJobSpans : List Job → Option (List SpanData)
  | [] => some []
  | j :: js =>
    match processJob j with
    | JobResult.skipped => collectJobSpans js
    | JobResult.panicNilName => none
    | JobResult.span s =>
      match collectJobSpans js with
      | some rest => some (s :: rest)
      | none => none

/-- Result of running `processBuild` on one build. -/
inductive BuildResult where
  | skipped
  | panicked
  | span (s : BuildSpan)
deriving DecidableEq

/-- The build worker `processBuild` from `build.go`: guard on
`StartedAt`/`FinishedAt`, start a span named after the build number, add a
`created` event at the start time and a `scheduled` event when present, set
state/status, the optional string attributes, the flattened metadata map,
process each job as a child span, and end at the finish timestamp. -/
def processBuild (b : Build) : BuildResult :=
  match b.startedAt, b.finishedAt with
  | some st, some fin =>
    match collectJobSpans b.jobs with
    | none => BuildResult.panicked
    | some children =>
      BuildResult.span
        { base :=
            { name := toString b.number,
              startTime := st,
              endTime := fin,
              events := ("created", st) ::
                (match b.scheduledAt with
                 | some t => [("scheduled", t)]
                 | none => []),
              attrs := buildAttrs b,
              status := statusOf b.state },
          children := children }
  | _, _ => BuildResult.skipped

/-- In-memory state of one run of `processBuildKite`: the growing dedup set
(`cachedBuildIDs`), the watermark candidate (`runFinishedAt`) and the builds
handed to workers (`go processBuild(...)`), in dispatch order. -/
structure LoopState where
  cache : Finset String
  runFinishedAt : Int
  dispatched : List Build
deriving DecidableEq

/-- The body of the per-build loop in `processBuildKite` for one unseen
build: claim the id in the dedup set, raise the watermark candidate when the
build has a finish time later than it (`b.FinishedAt.After(runFinishedAt)`),
and dispatch a worker. -/
def stepState (s : LoopState) (b : Build) : LoopState :=
  { cache := insert b.id s.cache,
    runFinishedAt :=
      match b.finishedAt with
      | some t => if s.runFinishedAt < t then t else s.runFinishedAt
      | none => s.runFinishedAt,
    dispatched := s.dispatched ++ [b] }

/-- The per-build loop of `processBuildKite` over one page of builds: ids
already in the dedup set are skipped, the rest go through `stepState`. -/
def processBuildsState (s : LoopState) : List Build → LoopState
  | [] => s
  | b :: bs =>
    if b.id ∈ s.cache then processBuildsState s bs
    else processBuildsState (stepState s b) bs

/-- Observable actions of one ingestion cycle, in program order: an API page
fetch, a worker dispatch, the cache rewrite, the watermark store, and the
`wg.Wait()` join. -/
inductive Action where
  | callAPI (page : Nat)
  | dispatch (id : String)
  | persistDedup
  | advanceWatermark
  | joinWait
deriving DecidableEq, BEq

/-- The per-build loop again, also emitting the dispatch actions of the page
in order. -/
def processBuilds (s : LoopState) : List Build → LoopState × List Action
  | [] => (s, [])
  | b :: bs =>
    if b.id ∈ s.cache then processBuilds s bs
    else
      let p := processBuilds (stepState s b) bs
      (p.1, Action.dispatch b.id :: p.2)

/-- One answer of the build-listing capability to one API call: either an
error (`bk.Builds.ListByPipeline` returned `err != nil`) or a page of builds
together with the `resp.NextPage` value (`0` meaning no further pages). -/
inductive FetchResult where
  | fetchError
  | page (builds : List Build) (next : Nat)
deriving DecidableEq

/-- Outcome of the pagination loop on a finite script of API answers:
the emitted actions, the final loop state, and whether the loop reached its
`break` (`resp.NextPage == 0`).  `done = false` means the script ran out
while the real loop would still be running (more retries or more pages). -/
structure LoopOut where
  trace : List Action
  state : LoopState
  done : Bool
deriving DecidableEq

/-- The pagination loop of `processBuildKite`.  The provider's answers are
consumed one per API call.  On `fetchError` the code logs and `continue`s:
the page variable and the whole loop state are unchanged, so the same page
is requested again by the next call.  On a successful page the builds are
processed and the loop either breaks (`NextPage == 0`) or continues at
`page = resp.NextPage`. -/
def pageLoop : List FetchResult → Nat → LoopState → LoopOut
  | [], _, s => ⟨[], s, false⟩
  | FetchResult.fetchError :: rest, page, s =>
    let o := pageLoop rest page s
    ⟨Action.callAPI page :: o.trace, o.state, o.done⟩
  | FetchResult.page builds next :: rest, page, s =>
    let p := processBuilds s builds
    if next = 0 then ⟨Action.callAPI page :: p.2, p.1, true⟩
    else
      let o := pageLoop rest next p.1
      ⟨Action.callAPI page :: p.2 ++ o.trace, o.state, o.done⟩

/-- The builds actually consumed by the pagination loop: every successful
page up to and including the one that reports `next = 0`; error answers
contribute nothing. -/
def fetchedBuilds : List FetchResult → List Build
  | [] => []
  | FetchResult.fetchError :: rest => fetchedBuilds rest
  | FetchResult.page builds 0 :: _ => builds
  | FetchResult.page builds (_ + 1) :: rest => builds ++ fetchedBuilds rest

/-- Result of one completed ingestion cycle: the dedup set written back by
`writeCache`, the new `lastFinishedAt`, and the builds handed to workers. -/
structure CycleResult where
  cache : Finset String
  watermark : Int
  dispatched : List Build
deriving DecidableEq

/-- One ingestion cycle over an already-flattened list of fetched builds:
the dedup/watermark core of `processBuildKite` starting from a loaded dedup
set `cache0` and the current watermark `w0`. -/
def runCycle (cache0 : Finset String) (w0 : Int) (builds : List Build) : CycleResult :=
  let s := processBuildsState ⟨cache0, w0, []⟩ builds
  ⟨s.cache, s.runFinishedAt, s.dispatched⟩

/-- One ingestion cycle with its action trace, from the provider script.
After the pagination loop breaks, `processBuildKite` runs, in this order:
`writeCache(cachedBuildIDs, f)`, the store `lastFinishedAt = runFinishedAt`,
and finally `wg.Wait()`.  Returns `none` when the script is too short for
the loop to reach its `break`. -/
def runCycleTr (cache0 : Finset String) (w0 : Int) (script : List FetchResult) :
    Option (List Action × CycleResult) :=
  let o := pageLoop script 1 ⟨cache0, w0, []⟩
  if o.done then
    some (o.trace ++ [Action.persistDedup, Action.advanceWatermark, Action.joinWait],
          ⟨o.state.cache, o.state.runFinishedAt, o.state.dispatched⟩)
  else none

/-- The `dropCR` step of Go `bufio.ScanLines`: strip one trailing carriage
return from a scanned token. -/
def dropCR (l : List Char) : List Char :=
  if l.getLast? = some '\r' then l.dropLast else l

/-- Tokens produced by `bufio.Scanner` with its default `ScanLines` split on
the given file content: split at every newline, drop the trailing empty
piece (a final unterminated line is still returned, an empty tail is not),
and strip one trailing carriage return from every token. -/
def scanLines (content : List Char) : List (List Char) :=
  let ls := splitCh '\n' content
  (if ls.getLast? = some [] then ls.dropLast else ls).map dropCR

/-- The `loadCache` function from `daemon.go`: scan the cache file line by
line and collect the tokens into a set of build ids. -/
def loadCache (content : List Char) : Finset String :=
  ((scanLines content).map List.asString).toFinset

/-- The `writeCache` function from `daemon.go`: truncate the file and write
every build id followed by a newline, in map-iteration order (the list
order here; the theorems quantify over every enumeration of the set). -/
def writeCache (ids : List String) : List Char :=
  ids.foldr (fun k acc => k.data ++ '\n' :: acc) []

/-! Helper lemmas about `splitCh` and the cache file format. -/

lemma splitCh_ne_nil (c : Char) (l : List Char) : splitCh c l ≠ [] := by
  induction l with
  | nil => simp [splitCh]
  | cons a rest ih =>
    by_cases h : a = c
    · simp [splitCh, h]
    · simp only [splitCh, if_neg h]
      cases hs : splitCh c rest with
      | nil => exact absurd hs ih
      | cons t ts => simp

lemma splitCh_append_delim (c : Char) (xs ys : List Char) :
    splitCh c (xs ++ c :: ys) = splitCh c xs ++ splitCh c ys := by
  induction xs with
  | nil => simp [splitCh]
  | cons a rest ih =>
    by_cases h : a = c
    · simp [splitCh, h, ih]
    · simp only [List.cons_append, splitCh, if_neg h, List.append_eq]
      cases hs : splitCh c rest with
      | nil => exact absurd hs (splitCh_ne_nil c rest)
      | cons t ts => rw [ih, hs]; rfl

lemma splitCh_no_delim (c : Char) (l : List Char) (h : c ∉ l) : splitCh c l = [l] := by
  induction l with
  | nil => simp [splitCh]
  | cons a rest ih =>
    rw [List.mem_cons] at h
    push_neg at h
    have ha : a ≠ c := fun hac => h.1 hac.symm
    simp only [splitCh, if_neg ha, ih h.2]

lemma splitCh_length (c : Char) (l : List Char) :
    (splitCh c l).length = l.count c + 1 := by
  induction l with
  | nil => simp [splitCh]
  | cons a rest ih =>
    by_cases h : a = c
    · simp [splitCh, h, List.count_cons, ih]
    · simp only [splitCh, if_neg h]
      cases hs : splitCh c rest with
      | nil => exact absurd hs (splitCh_ne_nil c rest)
      | cons t ts =>
        rw [hs] at ih
        simp only [List.length_cons] at ih ⊢
        simp [List.count_cons, h, Nat.succ_inj.mp ih]

lemma writeCache_splitCh (l : List String) :
    splitCh '\n' (writeCache l) = (l.flatMap fun k => splitCh '\n' k.data) ++ [[]] := by
  induction l with
  | nil => simp [writeCache, splitCh]
  | cons k rest ih =>
    show splitCh '\n' (k.data ++ '\n' :: writeCache rest) = _
    rw [splitCh_append_delim, ih, List.flatMap_cons, List.append_assoc]

lemma scanLines_writeCache (l : List String) :
    scanLines (writeCache l) = (l.flatMap fun k => splitCh '\n' k.data).map dropCR := by
  simp only [scanLines, writeCache_splitCh]
  rw [List.getLast?_concat]
  simp [List.dropLast_concat]

lemma asString_data (k : String) : k.data.asString = k := rfl

lemma mem_loadCache_writeCache (l : List String) (k : String) (hk : k ∈ l)
    (h1 : '\n' ∉ k.data) (h2 : k.data.getLast? ≠ some '\r') :
    k ∈ loadCache (writeCache l) := by
  unfold loadCache
  rw [scanLines_writeCache, List.mem_toFinset]
  refine List.mem_map.mpr ⟨dropCR k.data, ?_, ?_⟩
  · refine List.mem_map.mpr ⟨k.data, ?_, rfl⟩
    exact List.mem_flatMap.mpr ⟨k, hk, by rw [splitCh_no_delim _ _ h1]; simp⟩
  · rw [dropCR, if_neg h2, asString_data]

lemma loadCache_writeCache_of_wf (l : List String)
    (h : ∀ k ∈ l, '\n' ∉ k.data ∧ k.data.getLast? ≠ some '\r') :
    loadCache (writeCache l) = l.toFinset := by
  unfold loadCache
  rw [scanLines_writeCache]
  have hflat : (l.flatMap fun k => splitCh '\n' k.data) = l.map String.data := by
    induction l with
    | nil => simp
    | cons k rest ih =>
      rw [List.flatMap_cons, List.map_cons,
        splitCh_no_delim _ _ (h k (List.mem_cons_self k rest)).1,
        ih fun x hx => h x (List.mem_cons_of_mem k hx)]
      rfl
  rw [hflat, List.map_map, List.map_map]
  have : ∀ k ∈ l, ((List.asString ∘ dropCR) ∘ String.data) k = id k := by
    intro k hk
    simp only [Function.comp_apply, id_eq, dropCR, if_neg (h k hk).2, asString_data]
  rw [List.map_congr_left this, List.map_id]

/-! Helper lemmas about the per-build loop and the pagination loop. -/

/-- The builds of `bs` that a cycle starting with dedup set `c` dispatches,
in order: unseen ids are claimed as they are encountered. -/
def freshOnes (c : Finset String) : List Build → List Build
  | [] => []
  | b :: bs => if b.id ∈ c then freshOnes c bs else b :: freshOnes (insert b.id c) bs

lemma freshOnes_nil (c : Finset String) (bs : List Build)
    (h : ∀ b ∈ bs, b.id ∈ c) : freshOnes c bs = [] := by
  induction bs with
  | nil => rfl
  | cons b rest ih =>
    rw [freshOnes, if_pos (h b (List.mem_cons_self b rest))]
    exact ih fun x hx => h x (List.mem_cons_of_mem b hx)

lemma processBuildsState_dispatched (bs : List Build) :
    ∀ (c : Finset String) (w : Int) (d : List Build),
      (processBuildsState ⟨c, w, d⟩ bs).dispatched = d ++ freshOnes c bs := by
  induction bs with
  | nil => intro c w d; simp [processBuildsState, freshOnes]
  | cons b rest ih =>
    intro c w d
    by_cases h : b.id ∈ c
    · simp [processBuildsState, freshOnes, h, ih]
    · simp [processBuildsState, freshOnes, h, stepState, ih]

lemma processBuildsState_cache_mem (bs : List Build) :
    ∀ (c : Finset String) (w : Int) (d : List Build) (x : String),
      x ∈ (processBuildsState ⟨c, w, d⟩ bs).cache ↔ x ∈ c ∨ x ∈ bs.map Build.id := by
  induction bs with
  | nil => intro c w d x; simp [processBuildsState]
  | cons b rest ih =>
    intro c w d x
    by_cases h : b.id ∈ c
    · rw [processBuildsState, if_pos h, ih, List.map_cons]
      constructor
      · rintro (hc | hr)
        · exact Or.inl hc
        · exact Or.inr (List.mem_cons_of_mem _ hr)
      · rintro (hc | hbr)
        · exact Or.inl hc
        · rcases List.mem_cons.mp hbr with he | hr
          · exact Or.inl (he ▸ h)
          · exact Or.inr hr
    · rw [processBuildsState, if_neg h]
      show x ∈ (processBuildsState ⟨insert b.id c, _, _⟩ rest).cache ↔ _
      rw [ih, Finset.mem_insert, List.map_cons, List.mem_cons]
      tauto

lemma maxIf (w t : Int) : (if w < t then t else w) = max w t := by
  rcases le_or_lt t w with h | h
  · rw [if_neg (not_lt.mpr h), max_eq_left h]
  · rw [if_pos h, max_eq_right h.le]

lemma processBuildsState_watermark (bs : List Build) :
    ∀ (c : Finset String) (w : Int) (d : List Build),
      (processBuildsState ⟨c, w, d⟩ bs).runFinishedAt
        = ((freshOnes c bs).filterMap Build.finishedAt).foldl max w := by
  induction bs with
  | nil => intro c w d; simp [processBuildsState, freshOnes]
  | cons b rest ih =>
    intro c w d
    by_cases h : b.id ∈ c
    · simp [processBuildsState, freshOnes, h, ih]
    · rw [processBuildsState, if_neg h, freshOnes, if_neg h]
      show (processBuildsState ⟨insert b.id c, _, _⟩ rest).runFinishedAt = _
      rw [ih]
      cases hf : b.finishedAt with
      | none => simp [hf, List.filterMap_cons]
      | some t => simp [hf, List.filterMap_cons, maxIf]

lemma le_foldl_max (xs : List Int) : ∀ w : Int, w ≤ xs.foldl max w := by
  induction xs with
  | nil => intro w; simp
  | cons x rest ih =>
    intro w
    exact le_trans (le_max_left w x) (by simpa using ih (max w x))

lemma processBuildsState_append (xs ys : List Build) :
    ∀ s : LoopState,
      processBuildsState s (xs ++ ys) = processBuildsState (processBuildsState s xs) ys := by
  induction xs with
  | nil => intro s; rfl
  | cons b rest ih =>
    intro s
    by_cases h : b.id ∈ s.cache
    · rw [List.cons_append, processBuildsState, if_pos h, processBuildsState, if_pos h, ih]
    · rw [List.cons_append, processBuildsState, if_neg h, processBuildsState, if_neg h, ih]

lemma processBuilds_fst (bs : List Build) :
    ∀ s : LoopState, (processBuilds s bs).1 = processBuildsState s bs := by
  induction bs with
  | nil => intro s; rfl
  | cons b rest ih =>
    intro s
    by_cases h : b.id ∈ s.cache
    · rw [processBuilds, if_pos h, processBuildsState, if_pos h, ih]
    · rw [processBuilds, if_neg h, processBuildsState, if_neg h]
      exact ih (stepState s b)

lemma processBuilds_actions (bs : List Build) :
    ∀ (s : LoopState) (a : Action), a ∈ (processBuilds s bs).2 →
      ∃ i, a = Action.dispatch i := by
  induction bs with
  | nil => intro s a ha; simp [processBuilds] at ha
  | cons b rest ih =>
    intro s a ha
    by_cases h : b.id ∈ s.cache
    · rw [processBuilds, if_pos h] at ha
      exact ih s a ha
    · rw [processBuilds, if_neg h] at ha
      rcases List.mem_cons.mp ha with he | hr
      · exact ⟨b.id, he⟩
      · exact ih (stepState s b) a hr

lemma pageLoop_state (script : List FetchResult) :
    ∀ (p : Nat) (s : LoopState),
      (pageLoop script p s).state = processBuildsState s (fetchedBuilds script) := by
  induction script with
  | nil => intro p s; rfl
  | cons r rest ih =>
    intro p s
    cases r with
    | fetchError =>
      show (pageLoop rest p s).state = _
      rw [ih, fetchedBuilds]
    | page builds next =>
      cases next with
      | zero =>
        show (pageLoop (FetchResult.page builds 0 :: rest) p s).state = _
        rw [pageLoop]
        simp only [if_pos rfl]
        rw [processBuilds_fst]
        rfl
      | succ n =>
        rw [pageLoop]
        simp only [if_neg (Nat.succ_ne_zero n)]
        show (pageLoop rest (n + 1) (processBuilds s builds).1).state = _
        rw [ih, processBuilds_fst, fetchedBuilds, processBuildsState_append]

lemma pageLoop_trace_actions (script : List FetchResult) :
    ∀ (p : Nat) (s : LoopState) (a : Action), a ∈ (pageLoop script p s).trace →
      (∃ q, a = Action.callAPI q) ∨ ∃ i, a = Action.dispatch i := by
  induction script with
  | nil => intro p s a ha; simp [pageLoop] at ha
  | cons r rest ih =>
    intro p s a ha
    cases r with
    | fetchError =>
      rcases List.mem_cons.mp ha with he | hr
      · exact Or.inl ⟨p, he⟩
      · exact ih p s a hr
    | page builds next =>
      rw [pageLoop] at ha
      by_cases hn : next = 0
      · subst hn
        simp only [if_pos rfl] at ha
        rcases List.mem_cons.mp ha with he | hr
        · exact Or.inl ⟨p, he⟩
        · exact Or.inr (processBuilds_actions builds s a hr)
      · simp only [if_neg hn] at ha
        rcases List.mem_cons.mp ha with he | hr
        · exact Or.inl ⟨p, he⟩
        · rcases List.mem_append.mp hr with h1 | h2
          · exact Or.inr (processBuilds_actions builds s a h1)
          · exact ih next (processBuilds s builds).1 a h2

lemma agentMeta_foldl (ms : List String) :
    ∀ acc : List (String × AttrValue),
      ms.foldl
        (fun acc m =>
          match splitEq m with
          | [k, v] => acc ++ [("agent_" ++ k, AttrValue.str v)]
          | _ => acc)
        acc
      = acc ++ ms.filterMap fun m =>
          match splitEq m with
          | [k, v] => some ("agent_" ++ k, AttrValue.str v)
          | _ => none := by
  induction ms with
  | nil => intro acc; simp
  | cons m rest ih =>
    intro acc
    rw [List.foldl_cons, List.filterMap_cons]
    rcases hsp : splitEq m with _ | ⟨k, _ | ⟨v, _ | ⟨x, xs⟩⟩⟩ <;>
      (simp only [hsp]; rw [ih]; try simp)

lemma agentMetaAttrs_eq_filterMap (ms : List String) :
    agentMetaAttrs ms
      = ms.filterMap fun m =>
          match splitEq m with
          | [k, v] => some ("agent_" ++ k, AttrValue.str v)
          | _ => none := by
  unfold agentMetaAttrs
  simpa using agentMeta_foldl ms []

lemma metaAttrs_foldl (m : List (String × GoValue)) :
    ∀ acc : List (String × AttrValue),
      m.foldl
        (fun acc kv =>
          match kv.2 with
          | GoValue.str s => acc ++ [("build_" ++ kv.1, AttrValue.str s)]
          | GoValue.other => acc)
        acc
      = acc ++ m.filterMap fun kv =>
          match kv.2 with
          | GoValue.str s => some ("build_" ++ kv.1, AttrValue.str s)
          | GoValue.other => none := by
  induction m with
  | nil => intro acc; simp
  | cons kv rest ih =>
    intro acc
    rw [List.foldl_cons, List.filterMap_cons]
    rcases kv with ⟨k, v⟩
    cases v with
    | str s => simp only []; rw [ih]; simp
    | other => simp only []; rw [ih]

lemma metaAttrs_some_eq_filterMap (m : List (String × GoValue)) :
    metaAttrs (some m)
      = m.filterMap fun kv =>
          match kv.2 with
          | GoValue.str s => some ("build_" ++ kv.1, AttrValue.str s)
          | GoValue.other => none := by
  unfold metaAttrs
  simpa using metaAttrs_foldl m []

/-- C5: for every build record and every job record for which the span
builder emits a span, the span status is Error with message equal to the
raw state when the state is `failed`, Ok when it is `passed` or
`finished`, and Unset otherwise; when the state is absent the code never
calls SetStatus, so the status is the default Unset with empty message. -/
theorem c5_status_mapping (b : Build) (j : Job) (sb : BuildSpan) (sj : SpanData)
    (hb : processBuild b = BuildResult.span sb) (hj : processJob j = JobResult.span sj) :
    sb.base.status = statusOf b.state ∧ sj.status = statusOf j.state
    ∧ statusOf (some "failed") = (StatusCode.error, "failed")
    ∧ (∀ s : String, s = "passed" ∨ s = "finished" → statusOf (some s) = (StatusCode.ok, s))
    ∧ (∀ s : String, s ≠ "failed" → s ≠ "passed" → s ≠ "finished" →
        statusOf (some s) = (StatusCode.unset, s))
    ∧ statusOf none = (StatusCode.unset, "") := by
  refine ⟨?_, ?_, by decide, ?_, ?_, rfl⟩
  · unfold processBuild at hb
    split at hb
    · split at hb
      · simp at hb
      · cases hb; rfl
    · simp at hb
  · unfold processJob at hj
    split at hj
    · split at hj
      · simp at hj
      · cases hj; rfl
    · simp at hj
  · rintro s (rfl | rfl) <;> decide
  · intro s h1 h2 h3
    simp [statusOf, h1, h2, h3]

/-- C5 witness: a passed build and a failed job, both emitting spans. -/
theorem c5_status_mapping_witness :
    (⟨⟨"7", 1, 2, [("created", 1)], [("state", AttrValue.str "passed")],
        (StatusCode.ok, "passed")⟩, []⟩ : BuildSpan).base.status = statusOf (some "passed")
    ∧ (⟨"j", 3, 4, [],
        [("state", AttrValue.str "failed"), ("retry_count", AttrValue.int 0),
         ("retried", AttrValue.bool false), ("soft_failed", AttrValue.bool false)],
        (StatusCode.error, "failed")⟩ : SpanData).status = statusOf (some "failed") := by
  have h := c5_status_mapping
    ⟨"b", 7, some "passed", none, some 1, some 2, none, none, none, none, none, []⟩
    ⟨some "j", some "failed", none, none, none, none, none, some 3, some 4, 0,
      false, false, none, ⟨none, none, none, none, []⟩⟩
    ⟨⟨"7", 1, 2, [("created", 1)], [("state", AttrValue.str "passed")],
        (StatusCode.ok, "passed")⟩, []⟩
    ⟨"j", 3, 4, [],
        [("state", AttrValue.str "failed"), ("retry_count", AttrValue.int 0),
         ("retried", AttrValue.bool false), ("soft_failed", AttrValue.bool false)],
        (StatusCode.error, "failed")⟩
    (by decide) (by decide)
  exact ⟨h.1, h.2.1⟩

/-- C6: for every job whose span is emitted, the agent-metadata attributes
are a suffix of the span's attributes; an entry is emitted as
`agent_<key> = <value>` exactly when `strings.Split` on `=` yields two
tokens, which happens exactly when the string contains exactly one `=`;
all other entries are dropped; on the concrete input of the claim exactly
`agent_foo = bar` is emitted. -/
theorem c6_agent_metadata (j : Job) (sj : SpanData)
    (hj : processJob j = JobResult.span sj) :
    (∃ pre, sj.attrs = pre ++ agentMetaAttrs j.agent.metadata)
    ∧ (∀ ms : List String, agentMetaAttrs ms
        = ms.filterMap fun m =>
            match splitEq m with
            | [k, v] => some ("agent_" ++ k, AttrValue.str v)
            | _ => none)
    ∧ (∀ m : String, (splitEq m).length = 2 ↔ m.data.count '=' = 1)
    ∧ agentMetaAttrs ["foo=bar", "malformed", "a=b=c"]
        = [("agent_foo", AttrValue.str "bar")] := by
  refine ⟨?_, agentMetaAttrs_eq_filterMap, ?_, by decide⟩
  · unfold processJob at hj
    split at hj
    · split at hj
      · simp at hj
      · cases hj
        exact ⟨_, rfl⟩
    · simp at hj
  · intro m
    have h := splitCh_length '=' m.data
    unfold splitEq
    rw [List.length_map, h]
    omega

/-- C6 witness: a job carrying the claim's concrete agent metadata. -/
theorem c6_agent_metadata_witness :
    agentMetaAttrs ["foo=bar", "malformed", "a=b=c"]
      = [("agent_foo", AttrValue.str "bar")]
    ∧ ∃ pre,
        (⟨"j", 1, 2, [],
          [("retry_count", AttrValue.int 0), ("retried", AttrValue.bool false),
           ("soft_failed", AttrValue.bool false), ("agent_foo", AttrValue.str "bar")],
          (StatusCode.unset, "")⟩ : SpanData).attrs
          = pre ++ agentMetaAttrs ["foo=bar", "malformed", "a=b=c"] := by
  have h := c6_agent_metadata
    ⟨some "j", none, none, none, none, none, none, some 1, some 2, 0,
      false, false, none, ⟨none, none, none, none, ["foo=bar", "malformed", "a=b=c"]⟩⟩
    ⟨"j", 1, 2, [],
      [("retry_count", AttrValue.int 0), ("retried", AttrValue.bool false),
       ("soft_failed", AttrValue.bool false), ("agent_foo", AttrValue.str "bar")],
      (StatusCode.unset, "")⟩
    (by decide)
  exact ⟨h.2.2.2, h.1⟩

/-- C7: for every build whose span is emitted, the attribute list is the
fixed base attributes followed by the flattening of the metadata map;
string-valued entries become `build_<key>` attributes, non-string entries
are dropped without any error result, and the base attributes do not
depend on the metadata map. -/
theorem c7_build_metadata (b : Build) (sb : BuildSpan)
    (hb : processBuild b = BuildResult.span sb) :
    sb.base.attrs = buildAttrsBase b ++ metaAttrs b.metaData
    ∧ (∀ m : List (String × GoValue), metaAttrs (some m)
        = m.filterMap fun kv =>
            match kv.2 with
            | GoValue.str s => some ("build_" ++ kv.1, AttrValue.str s)
            | GoValue.other => none)
    ∧ metaAttrs none = []
    ∧ (∀ md, buildAttrsBase { b with metaData := md } = buildAttrsBase b) := by
  refine ⟨?_, metaAttrs_some_eq_filterMap, rfl, fun md => rfl⟩
  unfold processBuild at hb
  split at hb
  · split at hb
    · simp at hb
    · cases hb; rfl
  · simp at hb

/-- C7 witness: a build with one string and one non-string metadata entry. -/
theorem c7_build_metadata_witness :
    metaAttrs (some [("k", GoValue.str "v"), ("n", GoValue.other)])
      = [("k", GoValue.str "v"), ("n", GoValue.other)].filterMap
          (fun kv =>
            match kv.2 with
            | GoValue.str s => some ("build_" ++ kv.1, AttrValue.str s)
            | GoValue.other => none) :=
  (c7_build_metadata
    ⟨"b", 1, some "passed", none, some 1, some 2, none, none, none, none,
      some [("k", GoValue.str "v"), ("n", GoValue.other)], []⟩
    ⟨⟨"1", 1, 2, [("created", 1)],
        [("state", AttrValue.str "passed"), ("build_k", AttrValue.str "v")],
        (StatusCode.ok, "passed")⟩, []⟩
    (by decide)).2.1 _

/-- C10: after the started/finished guard passes, `processJob` dereferences
the optional name without a nil check: a job with both timestamps but no
name hits the nil dereference, while any present name yields a span named
with it. -/
theorem c10_name_deref (j : Job) (st fn : Int)
    (h1 : j.startedAt = some st) (h2 : j.finishedAt = some fn) :
    (j.name = none → processJob j = JobResult.panicNilName)
    ∧ ∀ n, j.name = some n →
        ∃ sp, processJob j = JobResult.span sp ∧ sp.name = n := by
  constructor
  · intro hn
    unfold processJob
    rw [h1, h2, hn]
  · intro n hn
    unfold processJob
    rw [h1, h2, hn]
    exact ⟨_, rfl, rfl⟩

/-- C10 witness: a timestamped job without a name panics on the nil name. -/
theorem c10_name_deref_witness :
    processJob ⟨none, none, none, none, none, none, none, some 1, some 2, 0,
        false, false, none, ⟨none, none, none, none, []⟩⟩
      = JobResult.panicNilName :=
  (c10_name_deref
    ⟨none, none, none, none, none, none, none, some 1, some 2, 0,
        false, false, none, ⟨none, none, none, none, []⟩⟩
    1 2 rfl rfl).1 rfl

/-- C1 (amended): a listed build with `startedAt` or `finishedAt` unset
produces no span (its worker returns before starting one), and a job with
either timestamp unset likewise produces no span; but the cycle adds the
build's id to the dedup set anyway (the add happens in the page loop,
before the worker's guard runs), so the build is not retried later. -/
theorem c1_skip_incomplete (cache0 : Finset String) (w0 : Int) (bs : List Build)
    (b : Build) (hb : b ∈ bs) (hskip : b.startedAt = none ∨ b.finishedAt = none) :
    processBuild b = BuildResult.skipped
    ∧ b.id ∈ (runCycle cache0 w0 bs).cache
    ∧ ∀ j : Job, (j.startedAt = none ∨ j.finishedAt = none) →
        processJob j = JobResult.skipped := by
  refine ⟨?_, ?_, fun j hj => ?_⟩
  · unfold processBuild
    rcases hskip with h | h
    · rw [h]
    · rw [h]; cases b.startedAt <;> rfl
  · show b.id ∈ (processBuildsState ⟨cache0, w0, []⟩ bs).cache
    rw [processBuildsState_cache_mem]
    exact Or.inr (List.mem_map.mpr ⟨b, hb, rfl⟩)
  · unfold processJob
    rcases hj with h | h
    · rw [h]
    · rw [h]; cases j.startedAt <;> rfl

/-- C1 witness: a canceled build that never started, alone in the listing. -/
theorem c1_skip_incomplete_witness :
    processBuild ⟨"b0", 1, some "canceled", none, none, some 5, none, none,
        none, none, none, []⟩ = BuildResult.skipped
    ∧ "b0" ∈ (runCycle ∅ 0 [⟨"b0", 1, some "canceled", none, none, some 5,
        none, none, none, none, none, []⟩]).cache := by
  have h := c1_skip_incomplete ∅ 0
    [⟨"b0", 1, some "canceled", none, none, some 5, none, none, none, none, none, []⟩]
    ⟨"b0", 1, some "canceled", none, none, some 5, none, none, none, none, none, []⟩
    (List.mem_cons_self _ _) (Or.inl rfl)
  exact ⟨h.1, h.2.1⟩

/-- C1 counterexample: the claim says the id of a build with `startedAt`
unset is not added to the dedup set; in fact the id of such a listed build
is in the set the cycle persists. -/
theorem c1_counterexample :
    (⟨"b0", 1, some "canceled", none, none, some 5, none, none, none, none,
        none, []⟩ : Build).startedAt = none
    ∧ "b0" ∈ (runCycle ∅ 0 [⟨"b0", 1, some "canceled", none, none, some 5,
        none, none, none, none, none, []⟩]).cache := by decide

/-- C2 (amended): in every completed cycle trace, the cache write and the
watermark store come after every page fetch and every worker dispatch, in
that order, but BEFORE the `wg.Wait()` join, which is the cycle's final
action. -/
theorem c2_effect_order (cache0 : Finset String) (w0 : Int)
    (script : List FetchResult) (tr : List Action) (r : CycleResult)
    (h : runCycleTr cache0 w0 script = some (tr, r)) :
    ∃ pre, tr = pre ++ [Action.persistDedup, Action.advanceWatermark, Action.joinWait]
      ∧ ∀ a ∈ pre, (∃ q, a = Action.callAPI q) ∨ ∃ i, a = Action.dispatch i := by
  unfold runCycleTr at h
  by_cases hd : (pageLoop script 1 ⟨cache0, w0, []⟩).done = true
  · rw [if_pos hd] at h
    simp only [Option.some.injEq, Prod.mk.injEq] at h
    exact ⟨_, h.1.symm, fun a ha => pageLoop_trace_actions script 1 _ a ha⟩
  · rw [if_neg hd] at h
    simp at h

/-- C2 witness: the empty one-page script yields the explicit trace with
persist, advance and join at the end. -/
theorem c2_effect_order_witness :
    ∃ pre, [Action.callAPI 1, Action.persistDedup, Action.advanceWatermark,
        Action.joinWait]
        = pre ++ [Action.persistDedup, Action.advanceWatermark, Action.joinWait]
      ∧ ∀ a ∈ pre, (∃ q, a = Action.callAPI q) ∨ ∃ i, a = Action.dispatch i :=
  c2_effect_order ∅ 0 [FetchResult.page [] 0]
    [Action.callAPI 1, Action.persistDedup, Action.advanceWatermark, Action.joinWait]
    ⟨∅, 0, []⟩ (by decide)

/-- C2 counterexample: on the concrete one-page script the cache write
(trace index 1) strictly precedes the join (trace index 3), so the persist
and advance steps do not happen after the join barrier as claimed — the
code calls `writeCache` and stores the watermark before `wg.Wait()`. -/
theorem c2_counterexample :
    runCycleTr ∅ 0 [FetchResult.page [] 0]
      = some ([Action.callAPI 1, Action.persistDedup, Action.advanceWatermark,
          Action.joinWait], ⟨∅, 0, []⟩)
    ∧ [Action.callAPI 1, Action.persistDedup, Action.advanceWatermark,
        Action.joinWait].indexOf Action.persistDedup
      < [Action.callAPI 1, Action.persistDedup, Action.advanceWatermark,
        Action.joinWait].indexOf Action.joinWait := by decide

/-- C3: after a completed cycle the watermark equals the previous value
folded with `max` over the finish times of the builds dispatched that
cycle; it never regresses; it is unchanged when nothing was dispatched;
and the single watermark store sits at the end of the trace, after every
dispatch. -/
theorem c3_watermark (cache0 : Finset String) (w0 : Int)
    (script : List FetchResult) (tr : List Action) (r : CycleResult)
    (h : runCycleTr cache0 w0 script = some (tr, r)) :
    r.watermark = (r.dispatched.filterMap Build.finishedAt).foldl max w0
    ∧ w0 ≤ r.watermark
    ∧ (r.dispatched = [] → r.watermark = w0)
    ∧ ∃ pre, tr = pre ++ [Action.persistDedup, Action.advanceWatermark, Action.joinWait]
        ∧ Action.advanceWatermark ∉ pre := by
  unfold runCycleTr at h
  by_cases hd : (pageLoop script 1 ⟨cache0, w0, []⟩).done = true
  · rw [if_pos hd] at h
    simp only [Option.some.injEq, Prod.mk.injEq] at h
    obtain ⟨htr, hr⟩ := h
    have hstate := pageLoop_state script 1 ⟨cache0, w0, []⟩
    have hw : r.watermark
        = ((freshOnes cache0 (fetchedBuilds script)).filterMap Build.finishedAt).foldl max w0 := by
      rw [← hr]
      show (pageLoop script 1 ⟨cache0, w0, []⟩).state.runFinishedAt = _
      rw [hstate, processBuildsState_watermark]
    have hdisp : r.dispatched = freshOnes cache0 (fetchedBuilds script) := by
      rw [← hr]
      show (pageLoop script 1 ⟨cache0, w0, []⟩).state.dispatched = _
      rw [hstate, processBuildsState_dispatched]
      rfl
    refine ⟨by rw [hw, hdisp], ?_, ?_, ?_⟩
    · rw [hw]
      exact le_foldl_max _ w0
    · intro hnil
      rw [hw, ← hdisp, hnil]
      rfl
    · refine ⟨_, htr.symm, fun hmem => ?_⟩
      rcases pageLoop_trace_actions script 1 _ _ hmem with ⟨q, hq⟩ | ⟨i, hi⟩
      · exact Action.noConfusion hq
      · exact Action.noConfusion hi
  · rw [if_neg hd] at h
    simp at h

/-- C3 witness: a one-page script with a single fresh build finishing at 7
advances the watermark from 0 to 7. -/
theorem c3_watermark_witness :
    (7 : Int) = (([⟨"x", 1, none, none, none, some 7, none, none, none, none,
        none, []⟩] : List Build).filterMap Build.finishedAt).foldl max 0
    ∧ (0 : Int) ≤ 7
    ∧ (([⟨"x", 1, none, none, none, some 7, none, none, none, none,
        none, []⟩] : List Build) = [] → (7 : Int) = 0)
    ∧ ∃ pre, [Action.callAPI 1, Action.dispatch "x", Action.persistDedup,
          Action.advanceWatermark, Action.joinWait]
        = pre ++ [Action.persistDedup, Action.advanceWatermark, Action.joinWait]
        ∧ Action.advanceWatermark ∉ pre :=
  c3_watermark ∅ 0
    [FetchResult.page [⟨"x", 1, none, none, none, some 7, none, none, none,
        none, none, []⟩] 0]
    [Action.callAPI 1, Action.dispatch "x", Action.persistDedup,
      Action.advanceWatermark, Action.joinWait]
    ⟨insert "x" ∅, 7, [⟨"x", 1, none, none, none, some 7, none, none, none,
        none, none, []⟩]⟩
    (by decide)

/-- C4 (amended): replaying a cycle against the unchanged build list, with
the dedup set loaded from the cache file written after the first run,
dispatches zero workers — provided every listed build id contains no
newline and does not end with a carriage return (other ids are corrupted
by the file round trip, see the counterexample). -/
theorem c4_idempotent (cache0 : Finset String) (w0 : Int) (builds : List Build)
    (l : List String)
    (hwf : ∀ b ∈ builds, '\n' ∉ b.id.data ∧ b.id.data.getLast? ≠ some '\r')
    (hl : l.toFinset = (runCycle cache0 w0 builds).cache) :
    (runCycle (loadCache (writeCache l)) ((runCycle cache0 w0 builds).watermark)
      builds).dispatched = [] := by
  show (processBuildsState ⟨loadCache (writeCache l), _, []⟩ builds).dispatched = []
  rw [processBuildsState_dispatched, freshOnes_nil]
  · rfl
  · intro b hb
    apply mem_loadCache_writeCache l b.id ?_ (hwf b hb).1 (hwf b hb).2
    rw [← List.mem_toFinset, hl]
    show b.id ∈ (processBuildsState ⟨cache0, w0, []⟩ builds).cache
    rw [processBuildsState_cache_mem]
    exact Or.inr (List.mem_map.mpr ⟨b, hb, rfl⟩)

/-- C4 witness: one well-formed build, cached by the first run, is skipped
by the replay. -/
theorem c4_idempotent_witness :
    (runCycle (loadCache (writeCache ["y"]))
      ((runCycle ∅ 0 [⟨"y", 1, none, none, some 1, some 2, none, none, none,
          none, none, []⟩]).watermark)
      [⟨"y", 1, none, none, some 1, some 2, none, none, none, none, none, []⟩]).dispatched
      = [] :=
  c4_idempotent ∅ 0
    [⟨"y", 1, none, none, some 1, some 2, none, none, none, none, none, []⟩]
    ["y"] (by decide) (by decide)

/-- C4 counterexample: a build id ending in a carriage return is written to
the cache file verbatim but read back without the `\x0d` (Scanner's
ScanLines drops it), so the replayed cycle fails to find the id in the
loaded set and dispatches the build again. -/
theorem c4_counterexample :
    (["x\r"] : List String).toFinset
      = (runCycle ∅ 0 [⟨"x\r", 1, none, none, some 1, some 2, none, none,
          none, none, none, []⟩]).cache
    ∧ (runCycle (loadCache (writeCache ["x\r"]))
        ((runCycle ∅ 0 [⟨"x\r", 1, none, none, some 1, some 2, none, none,
            none, none, none, []⟩]).watermark)
        [⟨"x\r", 1, none, none, some 1, some 2, none, none, none, none,
            none, []⟩]).dispatched ≠ [] := by decide

/-- C8: a failed page fetch leaves the page number and the whole loop state
unchanged and the next call requests the same page; any number of
consecutive errors never abandons the cycle nor changes its outcome (no
retry limit); a successful page with a nonzero `nextPage` continues
exactly at that page (none skipped); and the loop terminates exactly on
`nextPage = 0`. -/
theorem c8_pagination (rest : List FetchResult) (p : Nat) (s : LoopState)
    (n : Nat) (bs : List Build) (m : Nat) (hm : m ≠ 0) :
    pageLoop (FetchResult.fetchError :: rest) p s
      = ⟨Action.callAPI p :: (pageLoop rest p s).trace, (pageLoop rest p s).state,
          (pageLoop rest p s).done⟩
    ∧ pageLoop (List.replicate n FetchResult.fetchError ++ rest) p s
      = ⟨List.replicate n (Action.callAPI p) ++ (pageLoop rest p s).trace,
          (pageLoop rest p s).state, (pageLoop rest p s).done⟩
    ∧ (pageLoop (List.replicate n FetchResult.fetchError) p s).done = false
    ∧ pageLoop (FetchResult.page bs m :: rest) p s
      = ⟨Action.callAPI p :: (processBuilds s bs).2
            ++ (pageLoop rest m (processBuilds s bs).1).trace,
          (pageLoop rest m (processBuilds s bs).1).state,
          (pageLoop rest m (processBuilds s bs).1).done⟩
    ∧ pageLoop (FetchResult.page bs 0 :: rest) p s
      = ⟨Action.callAPI p :: (processBuilds s bs).2, (processBuilds s bs).1, true⟩ := by
  have hrep : ∀ (k : Nat) (tail : List FetchResult),
      pageLoop (List.replicate k FetchResult.fetchError ++ tail) p s
        = ⟨List.replicate k (Action.callAPI p) ++ (pageLoop tail p s).trace,
            (pageLoop tail p s).state, (pageLoop tail p s).done⟩ := by
    intro k
    induction k with
    | zero => intro tail; rfl
    | succ k ih =>
      intro tail
      rw [List.replicate_succ, List.cons_append, pageLoop, ih tail,
        List.replicate_succ, List.cons_append]
  refine ⟨rfl, hrep n rest, ?_, ?_, ?_⟩
  · have h0 := hrep n []
    rw [List.append_nil] at h0
    rw [h0]
    rfl
  · rw [pageLoop]
    simp only [if_neg hm]
  · rw [pageLoop]
    simp

/-- C8 witness: two errors then a terminating page; the error replay does
not change the outcome and the nonzero next page is followed. -/
theorem c8_pagination_witness :
    (3 ≠ 0)
    ∧ (pageLoop (List.replicate 2 FetchResult.fetchError) 2 ⟨∅, 0, []⟩).done = false
    ∧ pageLoop [FetchResult.page [] 0] 2 ⟨∅, 0, []⟩
      = ⟨Action.callAPI 2 :: (processBuilds ⟨∅, 0, []⟩ []).2,
          (processBuilds ⟨∅, 0, []⟩ []).1, true⟩ := by
  have h := c8_pagination [] 2 ⟨∅, 0, []⟩ 2 [] 3 (by decide)
  exact ⟨by decide, h.2.2.1, h.2.2.2.2⟩

/-- C9 (amended): writing any enumeration of a set of ids with `writeCache`
and reading the file back with `loadCache` returns exactly the set,
provided each id is non-empty, contains no newline and does not end with a
carriage return; the extra carriage-return condition is forced by the
counterexample. -/
theorem c9_roundtrip (l : List String)
    (h : ∀ k ∈ l, k ≠ "" ∧ '\n' ∉ k.data ∧ k.data.getLast? ≠ some '\r') :
    loadCache (writeCache l) = l.toFinset :=
  loadCache_writeCache_of_wf l fun k hk => ⟨(h k hk).2.1, (h k hk).2.2⟩

/-- C9 witness: a two-element round trip. -/
theorem c9_roundtrip_witness :
    loadCache (writeCache ["b", "a"]) = (["b", "a"] : List String).toFinset :=
  c9_roundtrip ["b", "a"] (by decide)

/-- C9 counterexample: the id `a\x0d` is non-empty and newline-free, yet the
round trip loses its trailing carriage return (Scanner's ScanLines strips
one `\x0d` before the newline), so the loaded set differs from the written
set. -/
theorem c9_counterexample :
    ("a\r" ≠ "" ∧ '\n' ∉ ("a\r" : String).data)
    ∧ loadCache (writeCache ["a\r"]) ≠ (["a\r"] : List String).toFinset := by decide

end Exporter
